import Mathlib

/-!
Shallow embedding of the voctrain vocabulary trainer
(`savestate.py`, `session.py`).

Conventions used throughout:

* Python `set` objects holding strings are modelled as `Finset String`.
* The per-vocabulary correction dictionary `VocState._extra_trans` maps an
  english word to a pair `(addset, rmset)`.  A key that is absent from the
  Python dict behaves exactly like the pair `(set(), set())` everywhere it is
  read (`dict.get(w, (set(), set()))` / `dict.setdefault(w, (set(), set()))`),
  so the store is modelled as a total function with default `(∅, ∅)`;
  deleting a key (`reset_modifications`) sets it back to the default.
* Python `str.lower()` is modelled character-wise by `Char.toLower`, which
  agrees with CPython on ASCII text.
* The ordered Python `dict` built by `_setup_test` is modelled as an
  association list together with the insertion operation `dictSet`, which
  replaces the value of an existing key in place and appends fresh keys,
  exactly like `d[k] = v`.
* User interaction (`input()`, `menu.choose`, `random.shuffle`) is modelled
  by oracle parameters: an answer stream, a decision stream and a shuffle
  function, quantified over in the theorems.
-/

/-- Model of Python `str.lower()` (character-wise ASCII lowering). -/
def strLower (s : String) : String :=
  ⟨s.data.map Char.toLower⟩

/-- Number of words per exam/training block (`_NUMWORDS` in `session.py`). -/
def NUMWORDS : Nat := 10

/-- Maximal trainee level (`_MAXLEVEL` in `session.py`). -/
def MAXLEVEL : Nat := 10

/-- Trainee state for one vocabulary file (`VocState` in `savestate.py`).
`extra_trans` returns the `(addset, rmset)` pair for a word, with `(∅, ∅)`
standing for an absent dict entry. -/
@[ext]
structure VocState where
  level : Nat
  qualified : Bool
  extra_trans : String → Finset String × Finset String

/-- The `VocState.__init__` defaults: level 0, not qualified, no extras. -/
def VocState.init : VocState :=
  ⟨0, false, fun _ => (∅, ∅)⟩

/-- Model of `VocState.change_translation`.  The source fetches
`(addset, rmset)` via `setdefault`, then performs, in place,
`addset |= add; addset -= remove; rmset |= remove; rmset -= add`.
The `add`/`remove` arguments themselves are only read, never written. -/
def VocState.change_translation (vs : VocState) (engword : String)
    (add remove : Finset String) : VocState :=
  let ar := vs.extra_trans engword
  { vs with
    extra_trans := fun w =>
      if w = engword then ((ar.1 ∪ add) \ remove, (ar.2 ∪ remove) \ add)
      else vs.extra_trans w }

/-- Model of `VocState.get_modified_translations`:
`result = set(translations); result |= addset; result -= rmset`. -/
def VocState.get_modified_translations (vs : VocState) (engword : String)
    (translations : List String) : Finset String :=
  let ar := vs.extra_trans engword
  (translations.toFinset ∪ ar.1) \ ar.2

/-- Model of `VocState.reset_modifications`: delete the word's dict entry,
i.e. revert it to the default `(∅, ∅)`. -/
def VocState.reset_modifications (vs : VocState) (engword : String) : VocState :=
  { vs with
    extra_trans := fun w =>
      if w = engword then (∅, ∅) else vs.extra_trans w }

/-- States of the correction store reachable by any sequence of
`change_translation` / `reset_modifications` calls from a fresh state. -/
inductive ReachableVS : VocState → Prop
  | init : ReachableVS VocState.init
  | change (vs : VocState) (w : String) (a r : Finset String) :
      ReachableVS vs → ReachableVS (vs.change_translation w a r)
  | reset (vs : VocState) (w : String) :
      ReachableVS vs → ReachableVS (vs.reset_modifications w)

/-- A vocabulary table: ordered `(engword, translations)` pairs
(`VocTable` in `session.py`). -/
abbrev VocTable := List (String × List String)

/-- Model of an insertion-ordered Python `dict` from strings to
translation lists, as the underlying entry list. -/
abbrev PyDict := List (String × List String)

/-- Python `d[k]`, returning `none` where Python would raise `KeyError`. -/
def dictGet : PyDict → String → Option (List String)
  | [], _ => none
  | p :: d, k => if p.1 = k then some p.2 else dictGet d k

/-- Python `d[k] = v`: overwrite the value of an existing key in place,
otherwise append the new pair at the end. -/
def dictSet : PyDict → String → List String → PyDict
  | [], k, v => [(k, v)]
  | p :: d, k, v => if p.1 = k then (k, v) :: d else p :: dictSet d k v

/-- Python `del d[k]` (a no-op where Python would raise `KeyError`,
which never happens at the call sites modelled here). -/
def dictDel : PyDict → String → PyDict
  | [], _ => []
  | p :: d, k => if p.1 = k then dictDel d k else p :: dictDel d k

/-- Python `list(d.keys())`. -/
def dictKeys (d : PyDict) : List String :=
  d.map (fun p => p.1)

/-- Python `dict(pairs)`: insert the pairs left to right. -/
def dictOfList (l : List (String × List String)) : PyDict :=
  l.foldl (fun d p => dictSet d p.1 p.2) []

/-- Model of `_setup_test`: `startix = _NUMWORDS * vstate.level;
dict(voctable[startix : startix + _NUMWORDS])`. -/
def setup_test (vstate : VocState) (voctable : VocTable) : PyDict :=
  dictOfList ((voctable.drop (NUMWORDS * vstate.level)).take NUMWORDS)

/-- The value carried by the last occurrence of key `k` in an entry list
(later entries take precedence); used to state what Python's `dict(pairs)`
keeps for a duplicated key. -/
def lastVal (l : List (String × List String)) (k : String) : Option (List String) :=
  match l with
  | [] => none
  | p :: rest => (lastVal rest k).or (if p.1 = k then some p.2 else none)

/-- The question loop of `_take_exam`: iterate the shuffled `testwords`,
reading answer number `k` from the stream `ans` (each `input()` lowers the
answer), deleting a correctly answered word from the session dict and
stopping at the first mismatch (`break`).  Returns the final session dict.
`(dictGet d w).getD []` totalises `vocdict[engword]`, whose key is always
present at this call site. -/
def examLoop (vs : VocState) (d : PyDict) (ws : List String)
    (ans : Nat → String) (k : Nat) : PyDict :=
  match ws with
  | [] => d
  | w :: rest =>
    if strLower (ans k) ∈ vs.get_modified_translations w ((dictGet d w).getD []) then
      examLoop vs (dictDel d w) rest ans (k + 1)
    else d

/-- Model of `_take_exam`, with the shuffled word order `testwords` and the
user's answers `ans` passed as oracles.  On an empty final dict the trainee
levels up and loses qualification; otherwise the state is returned as is. -/
def take_exam (vs : VocState) (voctable : VocTable)
    (testwords : List String) (ans : Nat → String) : VocState :=
  let vocdict := setup_test vs voctable
  let d := examLoop vs vocdict testwords ans 0
  if d.isEmpty then { vs with level := vs.level + 1, qualified := false }
  else vs

/-- The four outcomes of the `_modify_translation` menu. -/
inductive Decision where
  | doNothing
  | addAnswer
  | resetWord
  | replaceWord (target : String)

/-- Model of `_modify_translation`: apply the user's `Decision` for a
rejected `answer` to the word's correction store.  (The menu built from the
current translation set only offers `replaceWord` targets drawn from that
set; none of the claims needs that restriction.) -/
def modify_translation (engword answer : String) (vs : VocState)
    (dec : Decision) : VocState :=
  match dec with
  | .doNothing => vs
  | .addAnswer => vs.change_translation engword {answer} ∅
  | .resetWord => vs.reset_modifications engword
  | .replaceWord target => vs.change_translation engword {answer} {target}

/-- One round of the `_train` while-loop body: iterate the shuffled words,
deleting a correctly answered word from the session dict, and on a mismatch
applying the user's correction decision (`dec m` is the decision taken at
the `m`-th mismatch of the session; `ans k` is the `k`-th line typed).
Returns the updated trainee state, session dict and stream positions. -/
def trainRound (vs : VocState) (d : PyDict) (ws : List String)
    (ans : Nat → String) (dec : Nat → Decision) (k m : Nat) :
    VocState × PyDict × Nat × Nat :=
  match ws with
  | [] => (vs, d, k, m)
  | w :: rest =>
    let ts := vs.get_modified_translations w ((dictGet d w).getD [])
    let a := strLower (ans k)
    if a ∈ ts then
      trainRound vs (dictDel d w) rest ans dec (k + 1) m
    else
      trainRound (modify_translation w a vs (dec m)) d rest ans dec (k + 1) (m + 1)

/-- The `_train` round-end update when the session dict is empty:
`if not vstate.qualified: ... vstate.qualified = True` (the
`level < _MAXLEVEL` test in the source only gates a message). -/
def allCorrectUpdate (vs : VocState) : VocState :=
  if vs.qualified then vs else { vs with qualified := true }

/-- The `while keepon` loop of `_train`.  Each iteration shuffles the
remaining words (`shuffle r` for round `r`), runs one round, then either
ends in the all-correct state, or consults the continue/exit menu
(`cont r`).  `fuel` bounds the number of rounds; `none` means the bound was
hit, never a result of the source logic. -/
def trainLoop (fuel : Nat) (vs : VocState) (d : PyDict)
    (shuffle : Nat → List String → List String) (ans : Nat → String)
    (dec : Nat → Decision) (cont : Nat → Bool) (k m r : Nat) : Option VocState :=
  match fuel with
  | 0 => none
  | Nat.succ fuel' =>
    let ws := shuffle r (dictKeys d)
    let res := trainRound vs d ws ans dec k m
    if res.2.1.isEmpty then some (allCorrectUpdate res.1)
    else if cont r then
      trainLoop fuel' res.1 res.2.1 shuffle ans dec cont res.2.2.1 res.2.2.2 (r + 1)
    else some res.1

/-- Model of `_train`: set up the level block and run the round loop. -/
def train (fuel : Nat) (vs : VocState) (voctable : VocTable)
    (shuffle : Nat → List String → List String) (ans : Nat → String)
    (dec : Nat → Decision) (cont : Nat → Bool) : Option VocState :=
  trainLoop fuel vs (setup_test vs voctable) shuffle ans dec cont 0 0 0

/-! ## Correction-store theorems -/

/-- Pointwise behaviour of `change_translation` at the changed word. -/
theorem extra_trans_change_self (vs : VocState) (w : String) (a r : Finset String) :
    (vs.change_translation w a r).extra_trans w
      = (((vs.extra_trans w).1 ∪ a) \ r, ((vs.extra_trans w).2 ∪ r) \ a) := by
  simp [VocState.change_translation]

/-- Pointwise behaviour of `change_translation` at any other word. -/
theorem extra_trans_change_other (vs : VocState) (w w' : String)
    (a r : Finset String) (hw : w' ≠ w) :
    (vs.change_translation w a r).extra_trans w' = vs.extra_trans w' := by
  simp [VocState.change_translation, hw]

/-- Pointwise behaviour of `reset_modifications` at the reset word. -/
theorem extra_trans_reset_self (vs : VocState) (w : String) :
    (vs.reset_modifications w).extra_trans w = (∅, ∅) := by
  simp [VocState.reset_modifications]

/-- Pointwise behaviour of `reset_modifications` at any other word. -/
theorem extra_trans_reset_other (vs : VocState) (w w' : String) (hw : w' ≠ w) :
    (vs.reset_modifications w).extra_trans w' = vs.extra_trans w' := by
  simp [VocState.reset_modifications, hw]

/-- C1: for every word, correction-store state and default list,
`get_modified_translations` returns exactly
`(set(defaults) ∪ additions(w)) − removals(w)`; the result never meets
`removals(w)`, contains all of `additions(w)` whenever the additions and
removals are disjoint (the invariant of every reachable store), and a word
with no correction entry yields exactly `set(defaults)`. -/
theorem C1_effective_translations (vs : VocState) (w : String)
    (defaults : List String) :
    vs.get_modified_translations w defaults
      = (defaults.toFinset ∪ (vs.extra_trans w).1) \ (vs.extra_trans w).2
    ∧ (∀ x ∈ (vs.extra_trans w).2, x ∉ vs.get_modified_translations w defaults)
    ∧ (Disjoint (vs.extra_trans w).1 (vs.extra_trans w).2 →
        (vs.extra_trans w).1 ⊆ vs.get_modified_translations w defaults)
    ∧ (vs.extra_trans w = (∅, ∅) →
        vs.get_modified_translations w defaults = defaults.toFinset) := by
  refine ⟨rfl, ?_, ?_, ?_⟩
  · intro x hx
    simp [VocState.get_modified_translations, hx]
  · intro hdisj x hx
    simp only [VocState.get_modified_translations, Finset.mem_sdiff,
      Finset.mem_union]
    exact ⟨Or.inr hx, Finset.disjoint_left.mp hdisj hx⟩
  · intro h
    simp [VocState.get_modified_translations, h]

/-- Witness for C1 at a concrete store and default list. -/
theorem C1_effective_translations_witness :
    (VocState.init.extra_trans "dog").1
        ⊆ VocState.init.get_modified_translations "dog" ["hund"]
    ∧ VocState.init.get_modified_translations "dog" ["hund"]
        = (["hund"] : List String).toFinset :=
  ⟨(C1_effective_translations VocState.init "dog" ["hund"]).2.2.1 (by simp [VocState.init]),
   (C1_effective_translations VocState.init "dog" ["hund"]).2.2.2 rfl⟩

/-- C7: additions and removals stay disjoint for every word under every
sequence of `change_translation` / `reset_modifications` calls, and each
`change_translation w add remove` call turns the stored pair `(A, R)` into
`((A ∪ add) \ remove, (R ∪ remove) \ add)`. -/
theorem C7_disjointness_invariant :
    (∀ vs, ReachableVS vs →
      ∀ w, Disjoint (vs.extra_trans w).1 (vs.extra_trans w).2)
    ∧ (∀ (vs : VocState) (w : String) (a r : Finset String),
        (vs.change_translation w a r).extra_trans w
          = (((vs.extra_trans w).1 ∪ a) \ r, ((vs.extra_trans w).2 ∪ r) \ a)) := by
  constructor
  · intro vs h
    induction h with
    | init => intro w; simp [VocState.init]
    | change vs w a r _ ih =>
        intro w'
        by_cases hw : w' = w
        · subst hw
          rw [Finset.disjoint_left]
          intro x hx hx'
          rw [extra_trans_change_self] at hx hx'
          simp only [Finset.mem_sdiff, Finset.mem_union] at hx hx'
          obtain ⟨hxAa, hxr⟩ := hx
          obtain ⟨hxRr, hxa⟩ := hx'
          rcases hxAa with hA | ha
          · rcases hxRr with hR | hr
            · exact absurd hR (Finset.disjoint_left.mp (ih _) hA)
            · exact hxr hr
          · exact hxa ha
        · simpa [VocState.change_translation, hw] using ih w'
    | reset vs w _ ih =>
        intro w'
        by_cases hw : w' = w
        · subst hw; simp [VocState.reset_modifications]
        · simpa [VocState.reset_modifications, hw] using ih w'
  · intro vs w a r
    simp [VocState.change_translation]

/-- Witness for C7: a concrete reachable store keeps the sets disjoint. -/
theorem C7_disjointness_invariant_witness :
    Disjoint
      (((VocState.init.change_translation "dog" {"a"} {"b"}).extra_trans "dog").1)
      (((VocState.init.change_translation "dog" {"a"} {"b"}).extra_trans "dog").2) :=
  C7_disjointness_invariant.1 _
    (ReachableVS.change VocState.init "dog" {"a"} {"b"} ReachableVS.init) "dog"

/-- C8: `change_translation` is idempotent — repeating the identical call
leaves the whole state (the correction store in particular) unchanged. -/
theorem C8_change_translation_idempotent (vs : VocState) (w : String)
    (a r : Finset String) :
    (vs.change_translation w a r).change_translation w a r
      = vs.change_translation w a r := by
  refine VocState.ext rfl rfl ?_
  funext w'
  by_cases hw : w' = w
  · subst hw
    simp only [extra_trans_change_self]
    refine Prod.ext ?_ ?_ <;>
      · ext x
        simp only [Finset.mem_sdiff, Finset.mem_union]
        tauto
  · rw [extra_trans_change_other _ _ _ _ _ hw, extra_trans_change_other _ _ _ _ _ hw]

/-! ## Dictionary lemmas -/

/-- Looking up the key just stored finds the head value. -/
theorem dictGet_cons_same (a : String) (b : List String) (d : PyDict) :
    dictGet ((a, b) :: d) a = some b := by
  simp [dictGet]

/-- Lookup skips a head entry with a different key. -/
theorem dictGet_cons_ne (a : String) (b : List String) (d : PyDict)
    (k : String) (h : a ≠ k) : dictGet ((a, b) :: d) k = dictGet d k := by
  simp [dictGet, h]

/-- `dictSet` overwrites a matching head entry in place. -/
theorem dictSet_cons_same (a : String) (b : List String) (d : PyDict)
    (v : List String) : dictSet ((a, b) :: d) a v = (a, v) :: d := by
  simp [dictSet]

/-- `dictSet` walks past a head entry with a different key. -/
theorem dictSet_cons_ne (a : String) (b : List String) (d : PyDict)
    (k : String) (v : List String) (h : a ≠ k) :
    dictSet ((a, b) :: d) k v = (a, b) :: dictSet d k v := by
  simp [dictSet, h]

/-- Lookup after `dictSet`: the stored key yields the new value, all other
keys are untouched. -/
theorem dictGet_dictSet (d : PyDict) (k : String) (v : List String)
    (k' : String) :
    dictGet (dictSet d k v) k' = if k = k' then some v else dictGet d k' := by
  induction d with
  | nil =>
      by_cases h : k = k' <;> simp [dictSet, dictGet, h]
  | cons p d ih =>
      by_cases hpk : p.1 = k
      · subst hpk
        rw [dictSet_cons_same]
        by_cases h : p.1 = k'
        · subst h
          rw [dictGet_cons_same, if_pos rfl]
        · rw [dictGet_cons_ne _ _ _ _ h, if_neg h, dictGet_cons_ne _ _ _ _ h]
      · rw [dictSet_cons_ne _ _ _ _ _ hpk]
        by_cases h : p.1 = k'
        · subst h
          rw [dictGet_cons_same, if_neg (fun he => hpk he.symm), dictGet_cons_same]
      
        · rw [dictGet_cons_ne _ _ _ _ h, ih]
          by_cases h2 : k = k'
          · simp [h2]
          · simp [h2, dictGet_cons_ne _ _ _ _ h]

/-- Keys of a non-empty dict. -/
theorem dictKeys_cons (p : String × List String) (d : PyDict) :
    dictKeys (p :: d) = p.1 :: dictKeys d :=
  rfl

/-- Keys after `dictSet`: unchanged for an existing key, the new key is
appended otherwise. -/
theorem dictKeys_dictSet (d : PyDict) (k : String) (v : List String) :
    dictKeys (dictSet d k v)
      = if k ∈ dictKeys d then dictKeys d else dictKeys d ++ [k] := by
  induction d with
  | nil => simp [dictSet, dictKeys]
  | cons p d ih =>
      by_cases hpk : p.1 = k
      · subst hpk
        rw [dictSet_cons_same]
        simp [dictKeys]
      · have hk : k ≠ p.1 := fun he => hpk he.symm
        rw [dictSet_cons_ne _ _ _ _ _ hpk, dictKeys_cons, dictKeys_cons, ih]
        by_cases h : k ∈ dictKeys d
        · rw [if_pos h, if_pos (List.mem_cons_of_mem _ h)]
        · rw [if_neg h, if_neg ?notc]
          · simp [List.cons_append]
          case notc =>
            intro hc
            rcases List.mem_cons.mp hc with he | hm
            · exact hk he
            · exact h hm

/-- Membership in the keys after `dictSet`. -/
theorem mem_dictKeys_dictSet (d : PyDict) (k : String) (v : List String)
    (k' : String) :
    k' ∈ dictKeys (dictSet d k v) ↔ k' = k ∨ k' ∈ dictKeys d := by
  rw [dictKeys_dictSet]
  split_ifs with h
  · constructor
    · exact fun hm => Or.inr hm
    · rintro (rfl | hm)
      · exact h
      · exact hm
  · simp [List.mem_append, or_comm]

/-- `dictSet` preserves distinctness of the keys. -/
theorem nodup_dictKeys_dictSet (d : PyDict) (k : String) (v : List String)
    (h : (dictKeys d).Nodup) : (dictKeys (dictSet d k v)).Nodup := by
  rw [dictKeys_dictSet]
  split_ifs with hmem
  · exact h
  · rw [List.nodup_append]
    refine ⟨h, List.nodup_singleton _, ?_⟩
    intro a ha hb
    rw [List.mem_singleton] at hb
    subst hb
    exact hmem ha

/-- Folding insertions preserves distinctness of the keys. -/
theorem nodup_dictKeys_foldl (l : List (String × List String)) :
    ∀ d : PyDict, (dictKeys d).Nodup →
      (dictKeys (l.foldl (fun d p => dictSet d p.1 p.2) d)).Nodup := by
  induction l with
  | nil => intro d h; simpa using h
  | cons p l ih =>
      intro d h
      simp only [List.foldl_cons]
      exact ih _ (nodup_dictKeys_dictSet _ _ _ h)

/-- The keys of a Python dict built from a pair list are distinct. -/
theorem nodup_dictKeys_dictOfList (l : List (String × List String)) :
    (dictKeys (dictOfList l)).Nodup :=
  nodup_dictKeys_foldl l [] (by simp [dictKeys])

/-- A key present before or inserted during the fold is present after. -/
theorem mem_dictKeys_foldl (l : List (String × List String)) :
    ∀ (d : PyDict) (k : String),
      (k ∈ dictKeys d ∨ k ∈ l.map (fun p => p.1)) →
      k ∈ dictKeys (l.foldl (fun d p => dictSet d p.1 p.2) d) := by
  induction l with
  | nil =>
      rintro d k (h | h)
      · simpa using h
      · simp at h
  | cons p l ih =>
      rintro d k (h | h)
      · exact ih _ _ (Or.inl ((mem_dictKeys_dictSet _ _ _ _).mpr (Or.inr h)))
      · simp only [List.map_cons, List.mem_cons] at h
        rcases h with rfl | hm
        · exact ih _ _ (Or.inl ((mem_dictKeys_dictSet _ _ _ _).mpr (Or.inl rfl)))
        · exact ih _ _ (Or.inr hm)

/-- Every key occurring in the pair list is a key of the built dict. -/
theorem mem_dictKeys_dictOfList (l : List (String × List String)) (k : String)
    (h : k ∈ l.map (fun p => p.1)) : k ∈ dictKeys (dictOfList l) :=
  mem_dictKeys_foldl l [] k (Or.inr h)

/-- A key is among the keys exactly when lookup succeeds. -/
theorem mem_dictKeys_iff_isSome (d : PyDict) (k : String) :
    k ∈ dictKeys d ↔ (dictGet d k).isSome := by
  induction d with
  | nil => simp [dictKeys, dictGet]
  | cons p d ih =>
      rw [dictKeys_cons]
      by_cases h : p.1 = k
      · subst h
        rw [dictGet_cons_same p.1 p.2 d]
        simp
      · have h' : k ≠ p.1 := fun he => h he.symm
        rw [dictGet_cons_ne p.1 p.2 d k h, List.mem_cons]
        simp [h', ih]

/-- Lookup in a built dict returns the value of the last occurrence. -/
theorem dictGet_foldl (l : List (String × List String)) :
    ∀ (d : PyDict) (k : String),
      dictGet (l.foldl (fun d p => dictSet d p.1 p.2) d) k
        = (lastVal l k).or (dictGet d k) := by
  induction l with
  | nil => intro d k; simp [lastVal]
  | cons p l ih =>
      intro d k
      simp only [List.foldl_cons]
      rw [ih, dictGet_dictSet]
      cases hv : lastVal l k <;> by_cases hp : p.1 = k <;>
        simp [lastVal, hv, hp, Option.or]

/-- Python `dict(pairs)[k]` is the value of the last pair with key `k`. -/
theorem dictGet_dictOfList (l : List (String × List String)) (k : String) :
    dictGet (dictOfList l) k = lastVal l k := by
  have h := dictGet_foldl l [] k
  simpa [dictOfList, dictGet, Option.or_none] using h

/-- Entry count after `dictSet`: unchanged for an existing key, one more
otherwise. -/
theorem length_dictSet (d : PyDict) (k : String) (v : List String) :
    (dictSet d k v).length
      = if (dictGet d k).isSome then d.length else d.length + 1 := by
  induction d with
  | nil => simp [dictSet, dictGet]
  | cons p d ih =>
      by_cases hpk : p.1 = k
      · subst hpk
        rw [dictSet_cons_same]
        simp [dictGet]
      · rw [dictSet_cons_ne _ _ _ _ _ hpk]
        by_cases hg : (dictGet d k).isSome <;>
          simp [dictGet, hpk, ih, hg]

/-- `dictSet` grows the dict by at most one entry. -/
theorem length_dictSet_le (d : PyDict) (k : String) (v : List String) :
    (dictSet d k v).length ≤ d.length + 1 := by
  rw [length_dictSet]
  split_ifs <;> omega

/-- `dictSet` never removes a key. -/
theorem isSome_dictGet_dictSet (d : PyDict) (k : String) (v : List String)
    (k' : String) (h : (dictGet d k').isSome) :
    (dictGet (dictSet d k v) k').isSome := by
  rw [dictGet_dictSet]
  split_ifs <;> simp [h]

/-- The stored key is present after `dictSet`. -/
theorem isSome_dictGet_dictSet_self (d : PyDict) (k : String)
    (v : List String) : (dictGet (dictSet d k v) k).isSome := by
  rw [dictGet_dictSet]
  simp

/-- A fold of insertions grows the dict by at most the list length. -/
theorem length_foldl_dictSet_le (l : List (String × List String)) :
    ∀ d : PyDict,
      (l.foldl (fun d p => dictSet d p.1 p.2) d).length ≤ d.length + l.length := by
  induction l with
  | nil => intro d; simp
  | cons p l ih =>
      intro d
      have h1 := ih (dictSet d p.1 p.2)
      have h2 := length_dictSet_le d p.1 p.2
      simp only [List.foldl_cons, List.length_cons]
      omega

/-- A dict never holds more entries than the pair list it was built from. -/
theorem length_dictOfList_le (l : List (String × List String)) :
    (dictOfList l).length ≤ l.length := by
  simpa [dictOfList] using length_foldl_dictSet_le l []

/-- If some inserted key is already present, the fold adds strictly fewer
entries than pairs. -/
theorem length_foldl_dictSet_lt (l : List (String × List String)) :
    ∀ d : PyDict, (∃ p ∈ l, (dictGet d p.1).isSome) →
      (l.foldl (fun d p => dictSet d p.1 p.2) d).length < d.length + l.length := by
  induction l with
  | nil =>
      rintro d ⟨p, hp, _⟩
      simp at hp
  | cons q l ih =>
      rintro d ⟨p, hp, hsome⟩
      simp only [List.foldl_cons, List.length_cons]
      by_cases hq : (dictGet d q.1).isSome
      · have h1 := length_foldl_dictSet_le l (dictSet d q.1 q.2)
        have h2 : (dictSet d q.1 q.2).length = d.length := by
          rw [length_dictSet, if_pos hq]
        omega
      · have hpq : p ∈ l := by
          rcases List.mem_cons.mp hp with h | h
          · subst h; exact absurd hsome hq
          · exact h
        have hmono : (dictGet (dictSet d q.1 q.2) p.1).isSome :=
          isSome_dictGet_dictSet _ _ _ _ hsome
        have h3 := ih (dictSet d q.1 q.2) ⟨p, hpq, hmono⟩
        have h4 := length_dictSet_le d q.1 q.2
        omega

/-- Inserting a fresh key appends the pair at the end. -/
theorem dictSet_of_not_mem_keys (d : PyDict) (k : String) (v : List String)
    (h : k ∉ dictKeys d) : dictSet d k v = d ++ [(k, v)] := by
  induction d with
  | nil => simp [dictSet]
  | cons p d ih =>
      rw [dictKeys_cons, List.mem_cons] at h
      push_neg at h
      have hpk : p.1 ≠ k := fun he => h.1 he.symm
      rw [dictSet_cons_ne _ _ _ _ _ hpk, ih h.2, List.cons_append]

/-- Folding insertions of pairwise-fresh, pairwise-distinct keys just
appends the pair list. -/
theorem foldl_dictSet_of_nodup (l : List (String × List String)) :
    ∀ d : PyDict, (∀ p ∈ l, p.1 ∉ dictKeys d) →
      (l.map (fun p => p.1)).Nodup →
      l.foldl (fun d p => dictSet d p.1 p.2) d = d ++ l := by
  induction l with
  | nil => intro d _ _; simp
  | cons p l ih =>
      intro d hfresh hnd
      simp only [List.foldl_cons]
      have hp : p.1 ∉ dictKeys d := hfresh p (List.mem_cons_self p l)
      rw [dictSet_of_not_mem_keys _ _ _ hp]
      rw [List.map_cons] at hnd
      obtain ⟨hpl, hnd'⟩ := List.nodup_cons.mp hnd
      rw [ih (d ++ [(p.1, p.2)]) ?fresh hnd']
      · simp
      case fresh =>
        intro q hq
        have h1 : q.1 ∉ dictKeys d := hfresh q (List.mem_cons_of_mem _ hq)
        have h2 : q.1 ≠ p.1 := by
          intro he
          exact hpl (he ▸ List.mem_map_of_mem (fun p => p.1) hq)
        simp [dictKeys, List.mem_append, h1, h2]
        simpa [dictKeys] using h1

/-- Building a Python dict from a list with distinct keys keeps the list
verbatim. -/
theorem dictOfList_of_nodupKeys (l : List (String × List String))
    (h : (l.map (fun p => p.1)).Nodup) : dictOfList l = l := by
  have h0 := foldl_dictSet_of_nodup l [] (by intro p _; simp [dictKeys]) h
  simpa [dictOfList] using h0

/-- A duplicated key makes the built dict strictly smaller than the pair
list. -/
theorem length_dictOfList_lt_of_dup (l : List (String × List String))
    (w : String) (hdup : 1 < (l.map (fun p => p.1)).count w) :
    (dictOfList l).length < l.length := by
  have hwmem : w ∈ l.map (fun p => p.1) := List.count_pos_iff.mp (by omega)
  obtain ⟨p, hpmem, hpw⟩ := List.mem_map.mp hwmem
  obtain ⟨s, t, rfl⟩ := List.append_of_mem hpmem
  rw [List.map_append, List.count_append, List.map_cons, hpw,
    List.count_cons_self] at hdup
  have hcase : 0 < (s.map (fun p => p.1)).count w
      ∨ 0 < (t.map (fun p => p.1)).count w := by omega
  rcases hcase with hc | hc
  · have hsmem : w ∈ s.map (fun p => p.1) := List.count_pos_iff.mp hc
    have h1 : (dictGet (dictOfList s) p.1).isSome :=
      (mem_dictKeys_iff_isSome _ _).mp
        (mem_dictKeys_dictOfList s p.1 (hpw ▸ hsmem))
    have h2 := length_foldl_dictSet_lt (p :: t) (dictOfList s)
      ⟨p, List.mem_cons_self p t, h1⟩
    have h3 := length_dictOfList_le s
    have h4 : dictOfList (s ++ p :: t)
        = (p :: t).foldl (fun d p => dictSet d p.1 p.2) (dictOfList s) := by
      simp [dictOfList, List.foldl_append]
    rw [h4]
    simp only [List.length_append, List.length_cons] at h2 ⊢
    omega
  · have htmem : w ∈ t.map (fun p => p.1) := List.count_pos_iff.mp hc
    obtain ⟨q, hqmem, hqw⟩ := List.mem_map.mp htmem
    have h1 : (dictGet (dictSet (dictOfList s) p.1 p.2) q.1).isSome := by
      rw [hqw, ← hpw]
      exact isSome_dictGet_dictSet_self _ _ _
    have h2 := length_foldl_dictSet_lt t (dictSet (dictOfList s) p.1 p.2)
      ⟨q, hqmem, h1⟩
    have h3 := length_dictOfList_le s
    have h4 := length_dictSet_le (dictOfList s) p.1 p.2
    have h5 : dictOfList (s ++ p :: t)
        = t.foldl (fun d p => dictSet d p.1 p.2)
            (dictSet (dictOfList s) p.1 p.2) := by
      simp [dictOfList, List.foldl_append]
    rw [h5]
    simp only [List.length_append, List.length_cons] at h2 ⊢
    omega

/-! ## Word-block selection theorems -/

/-- C6: `_setup_test` builds its dict from exactly the slice
`[L*10, L*10+10)` of the ordered source list: position `i` of the slice is
position `L*10 + i` of the source (and empty past `NUMWORDS`), the slice
length is `min 10 (len − L*10)` — a shorter suffix when the list is
exhausted, with no error possible — and when the slice's words are distinct
the returned block is that slice verbatim. -/
theorem C6_word_block_selection (vs : VocState) (voctable : VocTable) :
    setup_test vs voctable
      = dictOfList ((voctable.drop (NUMWORDS * vs.level)).take NUMWORDS)
    ∧ (∀ i : Nat, ((voctable.drop (NUMWORDS * vs.level)).take NUMWORDS)[i]?
        = if i < NUMWORDS then voctable[NUMWORDS * vs.level + i]? else none)
    ∧ ((voctable.drop (NUMWORDS * vs.level)).take NUMWORDS).length
        = min NUMWORDS (voctable.length - NUMWORDS * vs.level)
    ∧ ((((voctable.drop (NUMWORDS * vs.level)).take NUMWORDS).map
          (fun p => p.1)).Nodup →
        setup_test vs voctable = (voctable.drop (NUMWORDS * vs.level)).take NUMWORDS) := by
  refine ⟨rfl, ?_, ?_, ?_⟩
  · intro i
    by_cases h : i < NUMWORDS
    · rw [if_pos h, List.getElem?_take_of_lt h, List.getElem?_drop]
    · rw [if_neg h]
      exact List.getElem?_eq_none
        (le_trans (List.length_take_le _ _) (le_of_not_lt h))
  · rw [List.length_take, List.length_drop]
  · intro h
    exact dictOfList_of_nodupKeys _ h

/-- Witness for C6 on a concrete two-word vocabulary at level 0. -/
theorem C6_word_block_selection_witness :
    setup_test VocState.init [("dog", ["hund"]), ("cat", ["katt"])]
      = [("dog", ["hund"]), ("cat", ["katt"])] :=
  (C6_word_block_selection VocState.init
      [("dog", ["hund"]), ("cat", ["katt"])]).2.2.2 (by decide)

/-- C10: if an english word occurs more than once inside a level's slice,
the block built by `_setup_test` holds that word exactly once, carrying the
default translations of the word's last occurrence in the slice, and the
block has strictly fewer entries than the slice. -/
theorem C10_duplicate_word_in_block (vs : VocState) (voctable : VocTable)
    (w : String)
    (hdup : 1 < (((voctable.drop (NUMWORDS * vs.level)).take NUMWORDS).map
        (fun p => p.1)).count w) :
    (dictKeys (setup_test vs voctable)).count w = 1
    ∧ dictGet (setup_test vs voctable) w
        = lastVal ((voctable.drop (NUMWORDS * vs.level)).take NUMWORDS) w
    ∧ (setup_test vs voctable).length
        < ((voctable.drop (NUMWORDS * vs.level)).take NUMWORDS).length := by
  have hmem : w ∈ ((voctable.drop (NUMWORDS * vs.level)).take NUMWORDS).map
      (fun p => p.1) := List.count_pos_iff.mp (by omega)
  refine ⟨?_, dictGet_dictOfList _ w, ?_⟩
  · exact List.count_eq_one_of_mem (nodup_dictKeys_dictOfList _)
      (mem_dictKeys_dictOfList _ w hmem)
  · exact length_dictOfList_lt_of_dup _ w hdup

/-- Witness for C10 on a slice holding the word `a` twice. -/
theorem C10_duplicate_word_in_block_witness :
    (dictKeys (setup_test VocState.init [("a", ["x"]), ("a", ["y"]), ("b", ["z"])])).count "a" = 1
    ∧ dictGet (setup_test VocState.init [("a", ["x"]), ("a", ["y"]), ("b", ["z"])]) "a"
        = lastVal [("a", ["x"]), ("a", ["y"]), ("b", ["z"])] "a"
    ∧ (setup_test VocState.init [("a", ["x"]), ("a", ["y"]), ("b", ["z"])]).length < 3 :=
  C10_duplicate_word_in_block VocState.init
    [("a", ["x"]), ("a", ["y"]), ("b", ["z"])] "a" (by decide)

/-! ## Exam-engine theorems -/

/-- Deleting one key leaves lookups of other keys unchanged. -/
theorem dictGet_dictDel_ne (d : PyDict) (w w' : String) (h : w' ≠ w) :
    dictGet (dictDel d w) w' = dictGet d w' := by
  induction d with
  | nil => rfl
  | cons p d ih =>
      by_cases hp : p.1 = w
      · rw [show dictDel (p :: d) w = dictDel d w from by simp [dictDel, hp],
          ih, dictGet_cons_ne p.1 p.2 d w' (by rw [hp]; exact fun he => h he.symm)]
      · rw [show dictDel (p :: d) w = p :: dictDel d w from by simp [dictDel, hp]]
        by_cases hq : p.1 = w'
        · subst hq
          rw [dictGet_cons_same p.1 p.2, dictGet_cons_same p.1 p.2]
        · rw [dictGet_cons_ne p.1 p.2 _ w' hq, dictGet_cons_ne p.1 p.2 d w' hq, ih]

/-- Deleting one key leaves the other keys present. -/
theorem mem_dictKeys_dictDel (d : PyDict) (w w' : String) (h : w' ≠ w)
    (hm : w' ∈ dictKeys d) : w' ∈ dictKeys (dictDel d w) := by
  rw [mem_dictKeys_iff_isSome, dictGet_dictDel_ne d w w' h]
  exact (mem_dictKeys_iff_isSome d w').mp hm

/-- A surviving entry of a deletion was present and does not carry the
deleted key. -/
theorem mem_dictDel (d : PyDict) (w : String) (p : String × List String)
    (h : p ∈ dictDel d w) : p ∈ d ∧ p.1 ≠ w := by
  induction d with
  | nil => simp [dictDel] at h
  | cons q d ih =>
      by_cases hq : q.1 = w
      · rw [show dictDel (q :: d) w = dictDel d w from by simp [dictDel, hq]] at h
        exact ⟨List.mem_cons_of_mem _ (ih h).1, (ih h).2⟩
      · rw [show dictDel (q :: d) w = q :: dictDel d w from by simp [dictDel, hq]] at h
        rcases List.mem_cons.mp h with rfl | hm
        · exact ⟨List.mem_cons_self _ _, hq⟩
        · exact ⟨List.mem_cons_of_mem _ (ih hm).1, (ih hm).2⟩

/-- Deleting every key of a dict empties it. -/
theorem foldl_dictDel_eq_nil (ws : List String) :
    ∀ d : PyDict, (∀ p ∈ d, p.1 ∈ ws) → ws.foldl dictDel d = [] := by
  induction ws with
  | nil =>
      intro d h
      cases d with
      | nil => rfl
      | cons p d => exact absurd (h p (List.mem_cons_self _ _)) (by simp)
  | cons w ws ih =>
      intro d h
      simp only [List.foldl_cons]
      apply ih
      intro p hp
      obtain ⟨hpd, hpw⟩ := mem_dictDel d w p hp
      rcases List.mem_cons.mp (h p hpd) with he | hm
      · exact absurd he hpw
      · exact hm

/-- An index below the length fetches a list member. -/
theorem getD_mem_of_lt (l : List String) (i : Nat) (h : i < l.length) :
    l.getD i "" ∈ l := by
  rw [List.getD_eq_getElem l "" h]
  exact List.getElem_mem h

/-- If every presented word is answered with one of its effective
translations, the exam loop deletes each presented word in turn. -/
theorem examLoop_all_match (vs : VocState) (ws : List String) :
    ∀ (d : PyDict) (ans : Nat → String) (k : Nat), ws.Nodup →
      (∀ i, i < ws.length →
        strLower (ans (k + i)) ∈ vs.get_modified_translations (ws.getD i "")
          ((dictGet d (ws.getD i "")).getD [])) →
      examLoop vs d ws ans k = ws.foldl dictDel d := by
  induction ws with
  | nil => intro d ans k _ _; rfl
  | cons w rest ih =>
      intro d ans k hnd hall
      obtain ⟨hwrest, hndr⟩ := List.nodup_cons.mp hnd
      have h0 : strLower (ans k) ∈ vs.get_modified_translations w
          ((dictGet d w).getD []) := by
        have := hall 0 (Nat.succ_pos rest.length)
        simpa using this
      simp only [examLoop, List.foldl_cons]
      rw [if_pos h0]
      apply ih (dictDel d w) ans (k + 1) hndr
      intro i hi
      have hne : rest.getD i "" ≠ w := by
        intro he
        exact hwrest (he ▸ getD_mem_of_lt rest i hi)
      have hstep := hall (i + 1) (Nat.succ_lt_succ hi)
      rw [dictGet_dictDel_ne d w _ hne]
      have harith : k + 1 + i = k + (i + 1) := by omega
      rw [harith]
      simpa using hstep

/-- If the first mismatch happens at position `j`, the word at position `j`
is still in the dict the exam loop returns. -/
theorem examLoop_first_mismatch (vs : VocState) (ws : List String) :
    ∀ (d : PyDict) (ans : Nat → String) (k j : Nat), ws.Nodup →
      j < ws.length → ws.getD j "" ∈ dictKeys d →
      (∀ i, i < j →
        strLower (ans (k + i)) ∈ vs.get_modified_translations (ws.getD i "")
          ((dictGet d (ws.getD i "")).getD [])) →
      strLower (ans (k + j)) ∉ vs.get_modified_translations (ws.getD j "")
        ((dictGet d (ws.getD j "")).getD []) →
      ws.getD j "" ∈ dictKeys (examLoop vs d ws ans k) := by
  induction ws with
  | nil => intro d ans k j _ hj; simp at hj
  | cons w rest ih =>
      intro d ans k j hnd hj hkey hbefore hmiss
      obtain ⟨hwrest, hndr⟩ := List.nodup_cons.mp hnd
      cases j with
      | zero =>
          have hcond : strLower (ans k) ∉ vs.get_modified_translations w
              ((dictGet d w).getD []) := by simpa using hmiss
          simp only [examLoop, List.getD_cons_zero]
          rw [if_neg hcond]
          simpa using hkey
      | succ j' =>
          have h0 : strLower (ans k) ∈ vs.get_modified_translations w
              ((dictGet d w).getD []) := by
            have := hbefore 0 (Nat.succ_pos j')
            simpa using this
          have hj' : j' < rest.length := Nat.lt_of_succ_lt_succ hj
          have hw' : rest.getD j' "" ≠ w := by
            intro he
            exact hwrest (he ▸ getD_mem_of_lt rest j' hj')
          simp only [examLoop, List.getD_cons_succ]
          rw [if_pos h0]
          apply ih (dictDel d w) ans (k + 1) j' hndr hj'
          · exact mem_dictKeys_dictDel d w _ hw' (by simpa using hkey)
          · intro i hi
            have hne : rest.getD i "" ≠ w := by
              intro he
              exact hwrest (he ▸ getD_mem_of_lt rest i (lt_trans hi hj'))
            have hstep := hbefore (i + 1) (Nat.succ_lt_succ hi)
            rw [dictGet_dictDel_ne d w _ hne]
            have harith : k + 1 + i = k + (i + 1) := by omega
            rw [harith]
            simpa using hstep
          · rw [dictGet_dictDel_ne d w _ hw']
            have harith : k + 1 + j' = k + (j' + 1) := by omega
            rw [harith]
            simpa using hmiss

/-- Up to the first mismatch the exam loop only reads the answers it
prompted, so answer streams agreeing there produce the same run. -/
theorem examLoop_ans_agree (vs : VocState) (ws : List String) :
    ∀ (d : PyDict) (ans ans' : Nat → String) (k j : Nat), ws.Nodup →
      j < ws.length →
      (∀ i, i < j →
        strLower (ans (k + i)) ∈ vs.get_modified_translations (ws.getD i "")
          ((dictGet d (ws.getD i "")).getD [])) →
      strLower (ans (k + j)) ∉ vs.get_modified_translations (ws.getD j "")
        ((dictGet d (ws.getD j "")).getD []) →
      (∀ i, i ≤ j → ans' (k + i) = ans (k + i)) →
      examLoop vs d ws ans' k = examLoop vs d ws ans k := by
  induction ws with
  | nil => intro d ans ans' k j _ hj; simp at hj
  | cons w rest ih =>
      intro d ans ans' k j hnd hj hbefore hmiss hagree
      obtain ⟨hwrest, hndr⟩ := List.nodup_cons.mp hnd
      have hk0 : ans' k = ans k := by
        have := hagree 0 (Nat.zero_le j)
        simpa using this
      cases j with
      | zero =>
          have hcond : strLower (ans k) ∉ vs.get_modified_translations w
              ((dictGet d w).getD []) := by simpa using hmiss
          simp only [examLoop]
          rw [hk0, if_neg hcond, if_neg hcond]
      | succ j' =>
          have h0 : strLower (ans k) ∈ vs.get_modified_translations w
              ((dictGet d w).getD []) := by
            have := hbefore 0 (Nat.succ_pos j')
            simpa using this
          have hj' : j' < rest.length := Nat.lt_of_succ_lt_succ hj
          simp only [examLoop]
          rw [hk0, if_pos h0, if_pos h0]
          apply ih (dictDel d w) ans ans' (k + 1) j' hndr hj'
          · intro i hi
            have hne : rest.getD i "" ≠ w := by
              intro he
              exact hwrest (he ▸ getD_mem_of_lt rest i (lt_trans hi hj'))
            have hstep := hbefore (i + 1) (Nat.succ_lt_succ hi)
            rw [dictGet_dictDel_ne d w _ hne]
            have harith : k + 1 + i = k + (i + 1) := by omega
            rw [harith]
            simpa using hstep
          · have hw' : rest.getD j' "" ≠ w := by
              intro he
              exact hwrest (he ▸ getD_mem_of_lt rest j' hj')
            rw [dictGet_dictDel_ne d w _ hw']
            have harith : k + 1 + j' = k + (j' + 1) := by omega
            rw [harith]
            simpa using hmiss
          · intro i hi
            have harith : k + 1 + i = k + (i + 1) := by omega
            rw [harith]
            exact hagree (i + 1) (Nat.succ_le_succ hi)

/-- C2: if the first mismatch of an exam over a block happens at position
`k` (earlier answers all match, the `k`-th does not), the exam leaves the
whole persistent state — level, qualification and correction store — exactly
as it was, and the run never reads any answer after position `k` (streams
agreeing up to `k` give identical outcomes, so later words are never
prompted). -/
theorem C2_exam_fail_fast (vs : VocState) (voctable : VocTable)
    (testwords : List String) (ans : Nat → String) (k : Nat)
    (hperm : testwords.Perm (dictKeys (setup_test vs voctable)))
    (hk : k < testwords.length)
    (hbefore : ∀ i, i < k →
      strLower (ans i) ∈ vs.get_modified_translations (testwords.getD i "")
        ((dictGet (setup_test vs voctable) (testwords.getD i "")).getD []))
    (hmiss : strLower (ans k) ∉
      vs.get_modified_translations (testwords.getD k "")
        ((dictGet (setup_test vs voctable) (testwords.getD k "")).getD [])) :
    take_exam vs voctable testwords ans = vs
    ∧ ∀ ans' : Nat → String, (∀ i, i ≤ k → ans' i = ans i) →
        take_exam vs voctable testwords ans' = take_exam vs voctable testwords ans := by
  have hnd : testwords.Nodup := hperm.nodup_iff.mpr (nodup_dictKeys_dictOfList _)
  have hmem := examLoop_first_mismatch vs testwords (setup_test vs voctable)
    ans 0 k hnd hk
    (hperm.mem_iff.mp (getD_mem_of_lt testwords k hk))
    (by intro i hi; have := hbefore i hi; simpa using this)
    (by simpa using hmiss)
  constructor
  · have hne : ¬((examLoop vs (setup_test vs voctable) testwords ans 0).isEmpty
        = true) := by
      intro hemp
      rw [List.isEmpty_iff] at hemp
      rw [hemp] at hmem
      simp [dictKeys] at hmem
    simp only [take_exam]
    rw [if_neg hne]
  · intro ans' hagree
    have heq : examLoop vs (setup_test vs voctable) testwords ans' 0
        = examLoop vs (setup_test vs voctable) testwords ans 0 :=
      examLoop_ans_agree vs testwords _ ans ans' 0 k hnd hk
        (by intro i hi; have := hbefore i hi; simpa using this)
        (by simpa using hmiss)
        (by intro i hi; have := hagree i hi; simpa using this)
    simp only [take_exam]
    rw [heq]

/-- Witness for C2: a two-word exam failed at position 1 leaves the fresh
state untouched. -/
theorem C2_exam_fail_fast_witness :
    take_exam VocState.init [("dog", ["hund"]), ("cat", ["katt"])]
      ["dog", "cat"] (fun n => if n = 0 then "hund" else "zz")
      = VocState.init :=
  (C2_exam_fail_fast VocState.init [("dog", ["hund"]), ("cat", ["katt"])]
      ["dog", "cat"] (fun n => if n = 0 then "hund" else "zz") 1
      (by decide) (by decide)
      (by
        intro i hi
        have h0 : i = 0 := by omega
        subst h0
        decide)
      (by decide)).1

/-- C3: an exam in which every presented word is answered with one of its
effective translations passes and changes the state exactly by incrementing
the level by one and forcing `qualified` to `false`, whatever its prior
value; the correction store is untouched. -/
theorem C3_exam_pass (vs : VocState) (voctable : VocTable)
    (testwords : List String) (ans : Nat → String)
    (hperm : testwords.Perm (dictKeys (setup_test vs voctable)))
    (hall : ∀ i, i < testwords.length →
      strLower (ans i) ∈ vs.get_modified_translations (testwords.getD i "")
        ((dictGet (setup_test vs voctable) (testwords.getD i "")).getD [])) :
    take_exam vs voctable testwords ans
      = { vs with level := vs.level + 1, qualified := false } := by
  have hnd : testwords.Nodup := hperm.nodup_iff.mpr (nodup_dictKeys_dictOfList _)
  have hrun : examLoop vs (setup_test vs voctable) testwords ans 0
      = testwords.foldl dictDel (setup_test vs voctable) :=
    examLoop_all_match vs testwords (setup_test vs voctable) ans 0 hnd
      (by intro i hi; have := hall i hi; simpa using this)
  have hempty : testwords.foldl dictDel (setup_test vs voctable) = [] := by
    apply foldl_dictDel_eq_nil
    intro p hp
    exact hperm.mem_iff.mpr (List.mem_map_of_mem (fun p => p.1) hp)
  simp only [take_exam]
  rw [hrun, hempty]
  rfl

/-- Witness for C3: a two-word exam answered correctly levels a fresh state
up to level 1 with `qualified = false`. -/
theorem C3_exam_pass_witness :
    take_exam VocState.init [("dog", ["hund"]), ("cat", ["katt"])]
      ["dog", "cat"] (fun n => if n = 0 then "hund" else "katt")
      = { VocState.init with
            level := VocState.init.level + 1
            qualified := false } :=
  C3_exam_pass VocState.init [("dog", ["hund"]), ("cat", ["katt"])]
    ["dog", "cat"] (fun n => if n = 0 then "hund" else "katt")
    (by decide)
    (by
      intro i hi
      have h01 : i = 0 ∨ i = 1 := by
        simp only [List.length_cons, List.length_nil] at hi
        omega
      rcases h01 with rfl | rfl <;> decide)

/-! ## Answer-comparison theorems -/

/-- Counterexample to C5 as stated: with effective translation set
`{"Hund"}`, the answer `"Hund"` equals an element of the set (so certainly
equals one up to letter case), yet the exam rejects it and mutates nothing,
because the source lowers only the answer (`input().lower()`) and compares
it verbatim against the unnormalised translations. -/
theorem C5_case_insensitive_counterexample :
    "Hund" ∈ VocState.init.get_modified_translations "dog"
      ((dictGet (setup_test VocState.init [("dog", ["Hund"])]) "dog").getD [])
    ∧ strLower "Hund" ∉ VocState.init.get_modified_translations "dog"
      ((dictGet (setup_test VocState.init [("dog", ["Hund"])]) "dog").getD [])
    ∧ take_exam VocState.init [("dog", ["Hund"])] ["dog"] (fun _ => "Hund")
        = VocState.init := by
  refine ⟨by decide, by decide, rfl⟩

/-- C5 (amended): in both engines only the user's answer is
case-normalised (lower-cased) before the comparison; the stored
translations are matched verbatim.  Hence answer streams whose entries
agree after lower-casing are interchangeable: the exam loop and a drill
round behave identically on them, whatever the stored translations'
case. -/
theorem C5_answer_case_normalised (ws : List String) (ans ans' : Nat → String)
    (hans : ∀ i, strLower (ans i) = strLower (ans' i)) :
    (∀ (vs : VocState) (d : PyDict) (k : Nat),
      examLoop vs d ws ans k = examLoop vs d ws ans' k)
    ∧ (∀ (vs : VocState) (d : PyDict) (dec : Nat → Decision) (k m : Nat),
      trainRound vs d ws ans dec k m = trainRound vs d ws ans' dec k m) := by
  induction ws with
  | nil => exact ⟨fun vs d k => rfl, fun vs d dec k m => rfl⟩
  | cons w rest ih =>
      constructor
      · intro vs d k
        simp only [examLoop]
        rw [hans k]
        by_cases h : strLower (ans' k) ∈ vs.get_modified_translations w
            ((dictGet d w).getD [])
        · rw [if_pos h, if_pos h, ih.1]
        · rw [if_neg h, if_neg h]
      · intro vs d dec k m
        simp only [trainRound]
        rw [hans k]
        by_cases h : strLower (ans' k) ∈ vs.get_modified_translations w
            ((dictGet d w).getD [])
        · rw [if_pos h, if_pos h, ih.2]
        · rw [if_neg h, if_neg h, ih.2]

/-- Witness for the amended C5: answers differing only in letter case give
the same exam run. -/
theorem C5_answer_case_normalised_witness :
    examLoop VocState.init [("cat", ["katt"])] ["cat"] (fun _ => "KATT") 0
      = examLoop VocState.init [("cat", ["katt"])] ["cat"] (fun _ => "katt") 0 :=
  (C5_answer_case_normalised ["cat"] (fun _ => "KATT") (fun _ => "katt")
    (fun _ => by
      show strLower "KATT" = strLower "katt"
      decide)).1 VocState.init [("cat", ["katt"])] 0

/-! ## Drill-engine theorems -/

/-- Level is untouched by every correction decision. -/
theorem level_modify_translation (w a : String) (vs : VocState)
    (dec : Decision) : (modify_translation w a vs dec).level = vs.level := by
  cases dec <;>
    simp [modify_translation, VocState.change_translation,
      VocState.reset_modifications]

/-- Qualification is untouched by every correction decision. -/
theorem qualified_modify_translation (w a : String) (vs : VocState)
    (dec : Decision) :
    (modify_translation w a vs dec).qualified = vs.qualified := by
  cases dec <;>
    simp [modify_translation, VocState.change_translation,
      VocState.reset_modifications]

/-- A drill round changes neither level nor qualification. -/
theorem trainRound_level_qualified (ws : List String) :
    ∀ (vs : VocState) (d : PyDict) (ans : Nat → String)
      (dec : Nat → Decision) (k m : Nat),
      ((trainRound vs d ws ans dec k m).1).level = vs.level
      ∧ ((trainRound vs d ws ans dec k m).1).qualified = vs.qualified := by
  induction ws with
  | nil => intro vs d ans dec k m; exact ⟨rfl, rfl⟩
  | cons w rest ih =>
      intro vs d ans dec k m
      simp only [trainRound]
      by_cases h : strLower (ans k) ∈ vs.get_modified_translations w
          ((dictGet d w).getD [])
      · rw [if_pos h]
        exact ih vs (dictDel d w) ans dec (k + 1) m
      · rw [if_neg h]
        obtain ⟨h1, h2⟩ := ih (modify_translation w (strLower (ans k)) vs (dec m))
          d ans dec (k + 1) (m + 1)
        exact ⟨h1.trans (level_modify_translation _ _ _ _),
          h2.trans (qualified_modify_translation _ _ _ _)⟩

/-- The all-correct round-end update keeps the level. -/
theorem level_allCorrectUpdate (vs : VocState) :
    (allCorrectUpdate vs).level = vs.level := by
  unfold allCorrectUpdate
  split_ifs <;> rfl

/-- A terminating drill loop never changes the level. -/
theorem trainLoop_level (fuel : Nat) :
    ∀ (vs : VocState) (d : PyDict)
      (shuffle : Nat → List String → List String) (ans : Nat → String)
      (dec : Nat → Decision) (cont : Nat → Bool) (k m r : Nat)
      (vs' : VocState),
      trainLoop fuel vs d shuffle ans dec cont k m r = some vs' →
      vs'.level = vs.level := by
  induction fuel with
  | zero =>
      intro vs d shuffle ans dec cont k m r vs' h
      simp [trainLoop] at h
  | succ fuel ih =>
      intro vs d shuffle ans dec cont k m r vs' h
      simp only [trainLoop] at h
      have hlev1 : ((trainRound vs d (shuffle r (dictKeys d)) ans dec k m).1).level
          = vs.level :=
        (trainRound_level_qualified _ vs d ans dec k m).1
      split_ifs at h with h1 h2
      · have hv := Option.some.inj h
        rw [← hv, level_allCorrectUpdate]
        exact hlev1
      · exact (ih _ _ shuffle ans dec cont _ _ _ vs' h).trans hlev1
      · have hv := Option.some.inj h
        rw [← hv]
        exact hlev1

/-- Counterexample to C4 as stated: in `_train` the assignment
`vstate.qualified = True` is guarded only by `if not vstate.qualified`; the
`level < _MAXLEVEL` test merely gates a printed message.  Starting
unqualified at `level = MAXLEVEL`, a drill session that ends all-correct
still sets `qualified = true`, where the claim demands it stay `false`. -/
theorem C4_drill_qualification_counterexample :
    (VocState.mk MAXLEVEL false (fun _ => (∅, ∅))).qualified = false
    ∧ ¬ (VocState.mk MAXLEVEL false (fun _ => (∅, ∅))).level < MAXLEVEL
    ∧ (train 1 (VocState.mk MAXLEVEL false (fun _ => (∅, ∅)))
        (List.replicate 101 ("cat", ["katt"])) (fun _ ws => ws)
        (fun _ => "katt") (fun _ => Decision.doNothing)
        (fun _ => true)).map VocState.qualified = some true
    ∧ (train 1 (VocState.mk MAXLEVEL false (fun _ => (∅, ∅)))
        (List.replicate 101 ("cat", ["katt"])) (fun _ ws => ws)
        (fun _ => "katt") (fun _ => Decision.doNothing)
        (fun _ => true)).map VocState.level = some MAXLEVEL := by
  refine ⟨rfl, by decide, by decide, by decide⟩

/-- C4 (amended): when a drill round ends with no remaining words, the
round-end update sets `qualified` to `true` exactly when it was `false`
beforehand — regardless of the level — and leaves an already-qualified
state untouched; rounds themselves never change level or qualification,
and a whole drill session never changes the level. -/
theorem C4_drill_qualification :
    (∀ vs : VocState,
      (allCorrectUpdate vs).qualified = true
      ∧ (allCorrectUpdate vs).level = vs.level
      ∧ (vs.qualified = true → allCorrectUpdate vs = vs)
      ∧ (vs.qualified = false →
          allCorrectUpdate vs = { vs with qualified := true }))
    ∧ (∀ (ws : List String) (vs : VocState) (d : PyDict) (ans : Nat → String)
        (dec : Nat → Decision) (k m : Nat),
        ((trainRound vs d ws ans dec k m).1).level = vs.level
        ∧ ((trainRound vs d ws ans dec k m).1).qualified = vs.qualified)
    ∧ (∀ (fuel : Nat) (vs : VocState) (voctable : VocTable)
        (shuffle : Nat → List String → List String) (ans : Nat → String)
        (dec : Nat → Decision) (cont : Nat → Bool) (vs' : VocState),
        train fuel vs voctable shuffle ans dec cont = some vs' →
        vs'.level = vs.level) := by
  refine ⟨?_, ?_, ?_⟩
  · intro vs
    cases hq : vs.qualified with
    | true =>
        refine ⟨?_, ?_, fun _ => ?_, fun hq' => ?_⟩
        · simp [allCorrectUpdate, hq]
        · simp [allCorrectUpdate, hq]
        · simp [allCorrectUpdate, hq]
        · exact absurd hq' (by simp)
    | false =>
        refine ⟨?_, ?_, fun hq' => ?_, fun _ => ?_⟩
        · simp [allCorrectUpdate, hq]
        · simp [allCorrectUpdate, hq]
        · exact absurd hq' (by simp)
        · simp [allCorrectUpdate, hq]
  · intro ws vs d ans dec k m
    exact trainRound_level_qualified ws vs d ans dec k m
  · intro fuel vs voctable shuffle ans dec cont vs' h
    exact trainLoop_level fuel vs (setup_test vs voctable) shuffle ans dec
      cont 0 0 0 vs' h

/-- Witness for the amended C4: an already-qualified state is untouched by
the all-correct update, and a concrete one-round drill keeps the level. -/
theorem C4_drill_qualification_witness :
    allCorrectUpdate (VocState.mk 0 true (fun _ => (∅, ∅)))
        = VocState.mk 0 true (fun _ => (∅, ∅))
    ∧ (allCorrectUpdate VocState.init).level = VocState.init.level :=
  ⟨(C4_drill_qualification.1 (VocState.mk 0 true (fun _ => (∅, ∅)))).2.2.1 rfl,
   C4_drill_qualification.2.2 1 VocState.init [("cat", ["katt"])]
     (fun _ ws => ws) (fun _ => "katt") (fun _ => Decision.doNothing)
     (fun _ => true) (allCorrectUpdate VocState.init) rfl⟩

/-! ## Heap model of `change_translation` (argument-object framing)

The Python method mutates the two set objects stored for the word
(`addset |= add; addset -= remove; rmset |= remove; rmset -= add`) and only
reads its `add`/`remove` arguments, which default to module-level shared
`set()` instances.  To reason about object identity we model set objects as
heap cells addressed by `Nat`, with the correction dict mapping a word to
the addresses of its two cells and `setdefault` allocating two fresh empty
cells at `next`, `next + 1`. -/

/-- A heap of Python `set` objects addressed by naturals; `next` is the
next free address. -/
structure Heap where
  sets : Nat → Finset String
  next : Nat

/-- Overwrite the object at address `a`, as an in-place set operation does. -/
def hUpd (h : Heap) (a : Nat) (s : Finset String) : Heap :=
  { h with sets := fun x => if x = a then s else h.sets x }

/-- The `_extra_trans` dict in the heap model: word ↦ addresses of its
`(addset, rmset)` cells, in insertion order. -/
structure VocStateH where
  tbl : List (String × Nat × Nat)

/-- Address lookup for a word's stored pair. -/
def findEntry (st : VocStateH) (w : String) : Option (Nat × Nat) :=
  (st.tbl.find? (fun e => e.1 == w)).map (fun e => e.2)

/-- Allocate the two fresh empty cells of a `(set(), set())` default at
addresses `next` and `next + 1`. -/
def hAlloc2 (h : Heap) : Heap :=
  { sets := fun x =>
      if x = h.next then ∅ else if x = h.next + 1 then ∅ else h.sets x,
    next := h.next + 2 }

/-- Model of `self._extra_trans.setdefault(engword, (set(), set()))`:
return the stored addresses, or allocate two fresh empty cells and insert
them for the word. -/
def setdefaultH (st : VocStateH) (h : Heap) (w : String) :
    (Nat × Nat) × VocStateH × Heap :=
  match findEntry st w with
  | some ar => (ar, st, h)
  | none =>
    ((h.next, h.next + 1),
     ⟨st.tbl ++ [(w, h.next, h.next + 1)]⟩,
     hAlloc2 h)

/-- The four in-place updates of the method body, in source order:
`addset |= add; addset -= remove; rmset |= remove; rmset -= add`, where
`a`, `r` are the stored cells and `aAddr`, `rAddr` the argument objects. -/
def heapWrite4 (h : Heap) (a r aAddr rAddr : Nat) : Heap :=
  let h1 := hUpd h a (h.sets a ∪ h.sets aAddr)
  let h2 := hUpd h1 a (h1.sets a \ h1.sets rAddr)
  let h3 := hUpd h2 r (h2.sets r ∪ h2.sets rAddr)
  hUpd h3 r (h3.sets r \ h3.sets aAddr)

/-- Heap-level model of `VocState.change_translation`: resolve (or
allocate) the word's cells with `setdefault`, then run the four in-place
updates. -/
def change_translationH (st : VocStateH) (h : Heap) (w : String)
    (aAddr rAddr : Nat) : VocStateH × Heap :=
  let sdf := setdefaultH st h w
  (sdf.2.1, heapWrite4 sdf.2.2 sdf.1.1 sdf.1.2 aAddr rAddr)

/-- The abstract correction store a heap state denotes: the values of the
stored cells, `(∅, ∅)` for an absent word. -/
def viewH (st : VocStateH) (h : Heap) : String → Finset String × Finset String :=
  fun w =>
    match findEntry st w with
    | some ar => (h.sets ar.1, h.sets ar.2)
    | none => (∅, ∅)

/-- Package an abstract store as a `VocState` (level and flag irrelevant
here). -/
def vsOfView (f : String → Finset String × Finset String) : VocState :=
  ⟨0, false, f⟩

/-- Address pairs of distinct dict entries never alias. -/
def entriesApart (e e' : String × Nat × Nat) : Prop :=
  e.2.1 ≠ e'.2.1 ∧ e.2.1 ≠ e'.2.2 ∧ e.2.2 ≠ e'.2.1 ∧ e.2.2 ≠ e'.2.2

/-- Well-formedness of a heap state: stored addresses are allocated, the
two cells of a word differ, keys are distinct and cells of distinct
entries never alias.  It holds for the empty dict and is preserved by
every call. -/
def wfH (st : VocStateH) (h : Heap) : Prop :=
  (∀ e ∈ st.tbl, e.2.1 < h.next ∧ e.2.2 < h.next ∧ e.2.1 ≠ e.2.2)
  ∧ (st.tbl.map (fun e => e.1)).Nodup
  ∧ st.tbl.Pairwise entriesApart

/-- An address that is allocated but not one of the stored cells — e.g.
the shared default-argument objects, or any caller-owned set. -/
def freeAddr (st : VocStateH) (h : Heap) (x : Nat) : Prop :=
  x < h.next ∧ ∀ e ∈ st.tbl, x ≠ e.2.1 ∧ x ≠ e.2.2

/-- Run a sequence of `change_translation` calls, each given a word and
the addresses of its two argument objects. -/
def execCalls : List (String × Nat × Nat) → VocStateH → Heap → VocStateH × Heap
  | [], st, h => (st, h)
  | c :: rest, st, h =>
      let p := change_translationH st h c.1 c.2.1 c.2.2
      execCalls rest p.1 p.2

/-- The alias relation is symmetric. -/
theorem entriesApart_symm : Symmetric entriesApart := by
  intro e e' h
  exact ⟨h.1.symm, h.2.2.1.symm, h.2.1.symm, h.2.2.2.symm⟩

/-- Facts delivered by a successful entry lookup. -/
theorem findEntry_eq_some (st : VocStateH) (w : String) (a r : Nat)
    (hf : findEntry st w = some (a, r)) :
    ∃ e ∈ st.tbl, e.1 = w ∧ e.2.1 = a ∧ e.2.2 = r := by
  unfold findEntry at hf
  cases hfind : st.tbl.find? (fun e => e.1 == w) with
  | none => rw [hfind] at hf; simp at hf
  | some e =>
      rw [hfind] at hf
      simp only [Option.map_some'] at hf
      have hkey : e.1 = w := by
        have := List.find?_some hfind
        simpa using this
      have h2 : e.2 = (a, r) := Option.some.inj hf
      exact ⟨e, List.mem_of_find?_eq_some hfind, hkey,
        by rw [h2], by rw [h2]⟩

/-- Every key of the dict differs from a word whose lookup fails. -/
theorem findEntry_eq_none (st : VocStateH) (w : String)
    (hf : findEntry st w = none) : ∀ e ∈ st.tbl, e.1 ≠ w := by
  unfold findEntry at hf
  cases hfind : st.tbl.find? (fun e => e.1 == w) with
  | none =>
      intro e he
      have := List.find?_eq_none.mp hfind e he
      simpa using this
  | some e => rw [hfind] at hf; simp at hf

/-- A key absent from a list is found in the appended singleton. -/
theorem find?_key_append_self (l : List (String × Nat × Nat)) (w : String)
    (a r : Nat) (hall : ∀ e ∈ l, e.1 ≠ w) :
    (l ++ [(w, a, r)]).find? (fun e => e.1 == w) = some (w, a, r) := by
  induction l with
  | nil => simp
  | cons e l ih =>
      have hne : (e.1 == w) = false := by
        simp only [beq_eq_false_iff_ne]
        exact hall e (List.mem_cons_self _ _)
      rw [List.cons_append]
      simp only [List.find?_cons, hne, cond_false]
      exact ih (fun e' he' => hall e' (List.mem_cons_of_mem _ he'))

/-- Appending an entry the predicate rejects leaves `find?` unchanged. -/
theorem find?_key_append (l : List (String × Nat × Nat))
    (q : String × Nat × Nat) (p : String × Nat × Nat → Bool)
    (hq : p q = false) : (l ++ [q]).find? p = l.find? p := by
  induction l with
  | nil => simp [List.find?, hq]
  | cons e l ih =>
      rw [List.cons_append]
      simp only [List.find?_cons]
      cases hpe : p e <;> simp [ih]

/-- Appending a fresh entry makes its lookup succeed. -/
theorem findEntry_append_self (st : VocStateH) (w : String) (a r : Nat)
    (hf : findEntry st w = none) :
    findEntry ⟨st.tbl ++ [(w, a, r)]⟩ w = some (a, r) := by
  have hall := findEntry_eq_none st w hf
  show ((st.tbl ++ [(w, a, r)]).find? (fun e => e.1 == w)).map (fun e => e.2)
      = some (a, r)
  rw [find?_key_append_self st.tbl w a r hall]
  rfl

/-- Appending an entry for another word leaves a lookup unchanged. -/
theorem findEntry_append_other (st : VocStateH) (w w' : String) (a r : Nat)
    (hne : w' ≠ w) :
    findEntry ⟨st.tbl ++ [(w, a, r)]⟩ w' = findEntry st w' := by
  show ((st.tbl ++ [(w, a, r)]).find? (fun e => e.1 == w')).map (fun e => e.2)
      = findEntry st w'
  rw [find?_key_append st.tbl (w, a, r) (fun e => e.1 == w')
    (by
      simp only [beq_eq_false_iff_ne]
      exact fun he => hne he.symm)]
  rfl

/-- Effect of the four in-place updates given that the argument objects do
not alias the stored cells: the stored cells take the merged values, every
other cell — arguments included — is untouched. -/
theorem heapWrite4_spec (h : Heap) (a r aAddr rAddr : Nat)
    (har : a ≠ r) (haa : aAddr ≠ a) (har2 : aAddr ≠ r)
    (hra : rAddr ≠ a) (_hrr : rAddr ≠ r) :
    (heapWrite4 h a r aAddr rAddr).sets a
        = (h.sets a ∪ h.sets aAddr) \ h.sets rAddr
    ∧ (heapWrite4 h a r aAddr rAddr).sets r
        = (h.sets r ∪ h.sets rAddr) \ h.sets aAddr
    ∧ (∀ x, x ≠ a → x ≠ r → (heapWrite4 h a r aAddr rAddr).sets x = h.sets x)
    ∧ (heapWrite4 h a r aAddr rAddr).next = h.next := by
  refine ⟨?_, ?_, ?_, rfl⟩
  · simp [heapWrite4, hUpd, har, haa, hra]
  · simp [heapWrite4, hUpd, har, Ne.symm har, haa, har2, hra]
  · intro x hxa hxr
    simp [heapWrite4, hUpd, hxa, hxr]

/-- The first fresh cell starts empty. -/
theorem hAlloc2_sets_fst (h : Heap) : (hAlloc2 h).sets h.next = ∅ := by
  simp [hAlloc2]

/-- The second fresh cell starts empty. -/
theorem hAlloc2_sets_snd (h : Heap) : (hAlloc2 h).sets (h.next + 1) = ∅ := by
  simp [hAlloc2, show h.next + 1 ≠ h.next from by omega]

/-- Allocation leaves every existing cell untouched. -/
theorem hAlloc2_sets_other (h : Heap) (x : Nat) (h1 : x ≠ h.next)
    (h2 : x ≠ h.next + 1) : (hAlloc2 h).sets x = h.sets x := by
  simp [hAlloc2, h1, h2]

/-- Allocation advances `next` by two. -/
theorem hAlloc2_next (h : Heap) : (hAlloc2 h).next = h.next + 2 :=
  rfl

/-- Full effect of one heap-level `change_translation` call whose argument
objects are not the word-table's own cells: well-formedness is preserved,
no free cell — the argument objects included — is ever written, freeness is
preserved, and the abstract store changes exactly as the pure
`change_translation` applied to the values of the argument objects. -/
theorem change_translationH_spec (st : VocStateH) (h : Heap) (w : String)
    (aAddr rAddr : Nat) (hwf : wfH st h) (hfa : freeAddr st h aAddr)
    (hfr : freeAddr st h rAddr) :
    wfH (change_translationH st h w aAddr rAddr).1
        (change_translationH st h w aAddr rAddr).2
    ∧ (∀ x, freeAddr st h x →
        ((change_translationH st h w aAddr rAddr).2).sets x = h.sets x)
    ∧ (∀ x, freeAddr st h x →
        freeAddr (change_translationH st h w aAddr rAddr).1
          (change_translationH st h w aAddr rAddr).2 x)
    ∧ viewH (change_translationH st h w aAddr rAddr).1
          (change_translationH st h w aAddr rAddr).2
        = ((vsOfView (viewH st h)).change_translation w
            (h.sets aAddr) (h.sets rAddr)).extra_trans := by
  obtain ⟨hbounds, hkeys, hpair⟩ := hwf
  cases hfind : findEntry st w with
  | some ar =>
      obtain ⟨a, r⟩ := ar
      obtain ⟨e, he, hew, hea, her⟩ := findEntry_eq_some st w a r hfind
      have hsd : setdefaultH st h w = ((a, r), st, h) := by
        unfold setdefaultH
        rw [hfind]
      have hP : change_translationH st h w aAddr rAddr
          = (st, heapWrite4 h a r aAddr rAddr) := by
        unfold change_translationH
        rw [hsd]
      have haa : aAddr ≠ a := hea ▸ (hfa.2 e he).1
      have har2 : aAddr ≠ r := her ▸ (hfa.2 e he).2
      have hra : rAddr ≠ a := hea ▸ (hfr.2 e he).1
      have hrr : rAddr ≠ r := her ▸ (hfr.2 e he).2
      have hane : a ≠ r := by
        rw [← hea, ← her]
        exact (hbounds e he).2.2
      obtain ⟨hw4a, hw4r, hw4f, hw4n⟩ :=
        heapWrite4_spec h a r aAddr rAddr hane haa har2 hra hrr
      refine ⟨?_, ?_, ?_, ?_⟩
      · rw [hP]
        dsimp only
        refine ⟨?_, hkeys, hpair⟩
        intro e' he'
        rw [hw4n]
        exact hbounds e' he'
      · rw [hP]
        dsimp only
        intro x hx
        exact hw4f x (hea ▸ (hx.2 e he).1) (her ▸ (hx.2 e he).2)
      · rw [hP]
        dsimp only
        intro x hx
        refine ⟨?_, hx.2⟩
        rw [hw4n]
        exact hx.1
      · rw [hP]
        dsimp only
        funext w'
        by_cases hww : w' = w
        · subst hww
          rw [extra_trans_change_self]
          simp only [viewH, vsOfView]
          rw [hfind]
          dsimp only
          rw [hw4a, hw4r]
        · rw [extra_trans_change_other _ _ _ _ _ hww]
          simp only [viewH, vsOfView]
          cases hfind' : findEntry st w' with
          | none => rfl
          | some ar' =>
              obtain ⟨a', r'⟩ := ar'
              dsimp only
              obtain ⟨e', he', hew', hea', her'⟩ :=
                findEntry_eq_some st w' a' r' hfind'
              have hee : e ≠ e' := by
                intro hcon
                apply hww
                rw [← hew', ← hcon, hew]
              have hrel := List.Pairwise.forall entriesApart_symm hpair he he' hee
              have h1 : a' ≠ a := by
                rw [← hea', ← hea]
                exact Ne.symm hrel.1
              have h2 : a' ≠ r := by
                rw [← hea', ← her]
                exact Ne.symm hrel.2.2.1
              have h3 : r' ≠ a := by
                rw [← her', ← hea]
                exact Ne.symm hrel.2.1
              have h4 : r' ≠ r := by
                rw [← her', ← her]
                exact Ne.symm hrel.2.2.2
              rw [hw4f a' h1 h2, hw4f r' h3 h4]
  | none =>
      have hall := findEntry_eq_none st w hfind
      have hsd : setdefaultH st h w
          = ((h.next, h.next + 1),
             ⟨st.tbl ++ [(w, h.next, h.next + 1)]⟩, hAlloc2 h) := by
        unfold setdefaultH
        rw [hfind]
      have hP : change_translationH st h w aAddr rAddr
          = (⟨st.tbl ++ [(w, h.next, h.next + 1)]⟩,
             heapWrite4 (hAlloc2 h) h.next (h.next + 1) aAddr rAddr) := by
        unfold change_translationH
        rw [hsd]
      have haa : aAddr ≠ h.next := by have := hfa.1; omega
      have har2 : aAddr ≠ h.next + 1 := by have := hfa.1; omega
      have hra : rAddr ≠ h.next := by have := hfr.1; omega
      have hrr : rAddr ≠ h.next + 1 := by have := hfr.1; omega
      have hane : h.next ≠ h.next + 1 := by omega
      obtain ⟨hw4a, hw4r, hw4f, hw4n⟩ :=
        heapWrite4_spec (hAlloc2 h) h.next (h.next + 1) aAddr rAddr
          hane haa har2 hra hrr
      refine ⟨?_, ?_, ?_, ?_⟩
      · rw [hP]
        dsimp only
        refine ⟨?_, ?_, ?_⟩
        · intro e' he'
          rw [hw4n, hAlloc2_next]
          rcases List.mem_append.mp he' with hold | hnew
          · obtain ⟨hb1, hb2, hb3⟩ := hbounds e' hold
            exact ⟨by omega, by omega, hb3⟩
          · have hne : e' = (w, h.next, h.next + 1) := by simpa using hnew
            subst hne
            exact ⟨show h.next < h.next + 2 by omega,
              show h.next + 1 < h.next + 2 by omega,
              show h.next ≠ h.next + 1 by omega⟩
        · rw [List.map_append, List.nodup_append]
          refine ⟨hkeys, by simp, ?_⟩
          intro x hx hx2
          simp only [List.map_cons, List.map_nil, List.mem_singleton] at hx2
          subst hx2
          obtain ⟨e', he', hew'⟩ := List.mem_map.mp hx
          exact hall e' he' hew'
        · rw [List.pairwise_append]
          refine ⟨hpair, by simp, ?_⟩
          intro e' he' e'' he''
          have he2 : e'' = (w, h.next, h.next + 1) := by simpa using he''
          subst he2
          obtain ⟨hb1, hb2, _⟩ := hbounds e' he'
          exact ⟨show e'.2.1 ≠ h.next by omega,
            show e'.2.1 ≠ h.next + 1 by omega,
            show e'.2.2 ≠ h.next by omega,
            show e'.2.2 ≠ h.next + 1 by omega⟩
      · rw [hP]
        dsimp only
        intro x hx
        have hxa : x ≠ h.next := by have := hx.1; omega
        have hxr : x ≠ h.next + 1 := by have := hx.1; omega
        rw [hw4f x hxa hxr, hAlloc2_sets_other h x hxa hxr]
      · rw [hP]
        dsimp only
        intro x hx
        refine ⟨?_, ?_⟩
        · rw [hw4n, hAlloc2_next]
          have := hx.1
          omega
        · intro e' he'
          rcases List.mem_append.mp he' with hold | hnew
          · exact hx.2 e' hold
          · have hne : e' = (w, h.next, h.next + 1) := by simpa using hnew
            subst hne
            have := hx.1
            exact ⟨show x ≠ h.next by omega, show x ≠ h.next + 1 by omega⟩
      · rw [hP]
        dsimp only
        funext w'
        by_cases hww : w' = w
        · subst hww
          rw [extra_trans_change_self]
          simp only [viewH, vsOfView]
          rw [findEntry_append_self st w' h.next (h.next + 1) hfind, hfind]
          dsimp only
          rw [hw4a, hw4r, hAlloc2_sets_fst, hAlloc2_sets_snd,
            hAlloc2_sets_other h aAddr haa har2,
            hAlloc2_sets_other h rAddr hra hrr]
        · rw [extra_trans_change_other _ _ _ _ _ hww]
          simp only [viewH, vsOfView]
          rw [findEntry_append_other st w w' h.next (h.next + 1) hww]
          cases hfind' : findEntry st w' with
          | none => rfl
          | some ar' =>
              obtain ⟨a', r'⟩ := ar'
              dsimp only
              obtain ⟨e', he', hew', hea', her'⟩ :=
                findEntry_eq_some st w' a' r' hfind'
              obtain ⟨hb1, hb2, _⟩ := hbounds e' he'
              have h1 : a' ≠ h.next := by rw [← hea']; omega
              have h2 : a' ≠ h.next + 1 := by rw [← hea']; omega
              have h3 : r' ≠ h.next := by rw [← her']; omega
              have h4 : r' ≠ h.next + 1 := by rw [← her']; omega
              rw [hw4f a' h1 h2, hw4f r' h3 h4,
                hAlloc2_sets_other h a' h1 h2, hAlloc2_sets_other h r' h3 h4]

/-- Across any sequence of calls whose argument objects are free (allocated
but not stored cells — in particular the shared default `set()` instances),
no argument object is ever written. -/
theorem execCalls_frame (calls : List (String × Nat × Nat)) :
    ∀ (st : VocStateH) (h : Heap), wfH st h →
      (∀ c ∈ calls, freeAddr st h c.2.1 ∧ freeAddr st h c.2.2) →
      ∀ x, freeAddr st h x →
        ((execCalls calls st h).2).sets x = h.sets x := by
  induction calls with
  | nil => intro st h _ _ x _; rfl
  | cons c rest ih =>
      intro st h hwf hargs x hx
      simp only [execCalls]
      obtain ⟨hca, hcr⟩ := hargs c (List.mem_cons_self _ _)
      obtain ⟨hwf', hframe, hfree, _⟩ :=
        change_translationH_spec st h c.1 c.2.1 c.2.2 hwf hca hcr
      have hargs' : ∀ c' ∈ rest,
          freeAddr (change_translationH st h c.1 c.2.1 c.2.2).1
            (change_translationH st h c.1 c.2.1 c.2.2).2 c'.2.1
          ∧ freeAddr (change_translationH st h c.1 c.2.1 c.2.2).1
            (change_translationH st h c.1 c.2.1 c.2.2).2 c'.2.2 := by
        intro c' hc'
        obtain ⟨h1, h2⟩ := hargs c' (List.mem_cons_of_mem _ hc')
        exact ⟨hfree _ h1, hfree _ h2⟩
      rw [ih _ _ hwf' hargs' x (hfree x hx)]
      exact hframe x hx

/-- C9: modelled on a heap of set objects, `change_translation` never
writes to the objects passed (or defaulted) as its `add`/`remove`
arguments — a single call leaves both argument cells untouched, and over
any sequence of prior calls every free cell (the shared default-argument
instances in particular) keeps its value; moreover the call transforms the
abstract store exactly as the pure `change_translation` applied to the
argument objects' current values, so an omitted argument whose shared
default cell still holds `∅` behaves exactly like a fresh empty set. -/
theorem C9_default_arguments_never_mutated :
    (∀ (st : VocStateH) (h : Heap) (w : String) (aAddr rAddr : Nat),
      wfH st h → freeAddr st h aAddr → freeAddr st h rAddr →
      ((change_translationH st h w aAddr rAddr).2).sets aAddr = h.sets aAddr
      ∧ ((change_translationH st h w aAddr rAddr).2).sets rAddr = h.sets rAddr
      ∧ viewH (change_translationH st h w aAddr rAddr).1
            (change_translationH st h w aAddr rAddr).2
          = ((vsOfView (viewH st h)).change_translation w
              (h.sets aAddr) (h.sets rAddr)).extra_trans)
    ∧ (∀ (calls : List (String × Nat × Nat)) (st : VocStateH) (h : Heap),
        wfH st h →
        (∀ c ∈ calls, freeAddr st h c.2.1 ∧ freeAddr st h c.2.2) →
        ∀ x, freeAddr st h x →
          ((execCalls calls st h).2).sets x = h.sets x) := by
  constructor
  · intro st h w aAddr rAddr hwf hfa hfr
    obtain ⟨_, hframe, _, hview⟩ :=
      change_translationH_spec st h w aAddr rAddr hwf hfa hfr
    exact ⟨hframe aAddr hfa, hframe rAddr hfr, hview⟩
  · exact fun calls => execCalls_frame calls

/-- Witness for C9: one call on an empty store with the two default cells
as arguments leaves the first default cell untouched. -/
theorem C9_default_arguments_never_mutated_witness :
    ((change_translationH (VocStateH.mk []) (Heap.mk (fun _ => ∅) 2)
        "dog" 0 1).2).sets 0
      = (Heap.mk (fun _ => ∅) 2).sets 0 :=
  (C9_default_arguments_never_mutated.1 (VocStateH.mk [])
    (Heap.mk (fun _ => ∅) 2) "dog" 0 1
    ⟨by simp, by simp, by simp⟩
    ⟨by decide, by simp⟩
    ⟨by decide, by simp⟩).1
